import Mathlib

/-!
Verification of the TypeScript-to-OpenAPI schema generator of dvsa/appdev-packages
(packages/openapi-schema-generator/src/index.ts).

The generator's pipeline is embedded shallowly:
  * type-expression strings are Lean `String`s, and the JavaScript string
    operations used by the source (`endsWith`, `slice(0,-n)`, `split('|')[0]`,
    `trim`, `includes('|')`, first-occurrence `replace`) are defined over
    `String.data`;
  * JavaScript objects used as records (definitions, properties, schema sets)
    are association lists with JS-object assignment semantics (`recSet` keeps
    the position of an existing key, appends a new one);
  * the mutable visited `Set` of `findReferencedModels` is an insertion-ordered
    duplicate-free list threaded through the recursion, and the unbounded
    recursion of the source is indexed by fuel: a `none` result means the
    recursion depth exceeded the fuel (the source would still be recursing);
  * `registerLambdaHandler`'s global registry is passed as explicit state.
-/

/-- JS `s.endsWith(pat)`: the last `pat.length` characters of `s` are `pat`. -/
def jsEndsWith (s pat : String) : Bool :=
  decide (s.data.reverse.take pat.data.length = pat.data.reverse)

/-- JS `s.slice(0, -n)`: drop the last `n` characters. -/
def jsDropRight (s : String) (n : Nat) : String :=
  ⟨s.data.take (s.data.length - n)⟩

/-- Whitespace recognized by JS `trim` (the characters occurring in source texts). -/
def wsChar (c : Char) : Bool :=
  c == ' ' || c == '\t' || c == '\n' || c == '\r'

def trimChars (l : List Char) : List Char :=
  ((l.dropWhile wsChar).reverse.dropWhile wsChar).reverse

/-- JS `s.trim()`. -/
def jsTrim (s : String) : String := ⟨trimChars s.data⟩

/-- JS `s.split('|')[0]`: the part of `s` before the first `'|'`. -/
def jsSplitPipeHead (s : String) : String :=
  ⟨s.data.takeWhile (fun c => c != '|')⟩

/-- JS `s.includes('|')`. -/
def hasPipe (s : String) : Bool := s.data.contains '|'

/-- JS `s.replace(pat, '')` for a string pattern: remove the first occurrence of
`pat` (if any) from the character list. -/
def jsRemoveFirst (pat : List Char) : List Char → List Char
  | [] => []
  | c :: rest =>
    if pat.isPrefixOf (c :: rest) then (c :: rest).drop pat.length
    else c :: jsRemoveFirst pat rest

/-- JS `s.replace(pat, '')` lifted to `String`. -/
def jsRemoveFirstStr (s pat : String) : String := ⟨jsRemoveFirst pat.data s.data⟩

/-- A raw value stored in an extracted definition record: either the literal
source text of a declared type (for interface/class members) or an array of
literal strings (the `enum:` entry for enum-like declarations). -/
inductive FieldVal where
  | str (s : String)
  | arr (vs : List String)
deriving DecidableEq, Repr

/-- One extracted Definition: a JS record from field name to raw value. -/
abbrev Defn := List (String × FieldVal)

/-- The extracted definition mapping: declared name to Definition. -/
abbrev Defs := List (String × Defn)

/-- JS object read `obj[k]`. -/
def recGet {β : Type} (k : String) : List (String × β) → Option β
  | [] => none
  | (k', v) :: rest => if k' = k then some v else recGet k rest

/-- JS object assignment `obj[k] = v`: an existing key keeps its position,
a new key is appended (JS own-property insertion order). -/
def recSet {β : Type} (k : String) (v : β) : List (String × β) → List (String × β)
  | [] => [(k, v)]
  | (k', v') :: rest => if k' = k then (k, v) :: rest else (k', v') :: recSet k v rest

/-- A Draft Schema Node; the shapes produced by the generator
(`SpecificOpenAPISchemaObject` plus the bare `{ type: primitive }` node
returned by `typeToSchemaObject`). -/
inductive Schema where
  | obj (properties : List (String × Schema)) (required : Option (List String))
  | arr (items : Schema)
  | enumS (t : String) (vals : List String)
  | ref (r : String)
  | prim (t : String)

/-- The leaf case of `typeToSchemaObject`: the three primitive names become
`{ type: value }`, anything else becomes `{ $ref: '#/components/schemas/' + value }`. -/
def typeLeaf (value : String) : Schema :=
  if value = "string" ∨ value = "number" ∨ value = "boolean" then Schema.prim value
  else Schema.ref ("#/components/schemas/" ++ value)

/-- `typeToSchemaObject` expressed on the reversed character list so the
recursion (peel a trailing `[]`, i.e. leading `']' '['` of the reversal) is
structural. `typeToSchemaObject_eq` below recovers the source's
`endsWith`/`slice` formulation. -/
def typeToSchemaCore : List Char → Schema
  | [] => typeLeaf ⟨[]⟩
  | [c] => typeLeaf ⟨[c]⟩
  | c1 :: c2 :: rest =>
    if c1 = ']' ∧ c2 = '[' then Schema.arr (typeToSchemaCore rest)
    else typeLeaf ⟨(c1 :: c2 :: rest).reverse⟩

/-- Convert a TypeScript type-expression string to a field schema node. -/
def typeToSchemaObject (value : String) : Schema := typeToSchemaCore value.data.reverse

/-- Number of trailing `[]` array markers of a type expression (reversed form). -/
def revDepth : List Char → Nat
  | [] => 0
  | [_] => 0
  | c1 :: c2 :: rest => if c1 = ']' ∧ c2 = '[' then revDepth rest + 1 else 0

/-- Nesting depth of trailing array markers of a type expression. -/
def arrayDepth (s : String) : Nat := revDepth s.data.reverse

/-- Remainder after removing trailing `[]` markers (reversed form). -/
def revStrip : List Char → List Char
  | [] => []
  | [c] => [c]
  | c1 :: c2 :: rest => if c1 = ']' ∧ c2 = '[' then revStrip rest else c1 :: c2 :: rest

/-- The type expression with all trailing `[]` array markers removed. -/
def stripArrays (s : String) : String := ⟨(revStrip s.data.reverse).reverse⟩

/-- Wrap a schema in `n` nested `array`/`items` levels. -/
def nestArr : Nat → Schema → Schema
  | 0, sch => sch
  | n + 1, sch => Schema.arr (nestArr n sch)

/-- JS `typeof` of the literal values stored by the extractor: every stored
enum value is a JS string (string-literal initializer text, member identifier
text, or property name). -/
def jsTypeofStr (_ : String) : String := "string"

/-- The primitive type inferred for an enum value list in `dictToOpenAPI`:
`boolean` if every element is a boolean, else `number` if every element is a
number, else `string`. -/
def calcType (vs : List String) : String :=
  if vs.all (fun v => jsTypeofStr v == "boolean") then "boolean"
  else if vs.all (fun v => jsTypeofStr v == "number") then "number"
  else "string"

/-- The normalization `dictToOpenAPI` applies to a declared type-expression
string: `value.replace(' | undefined', '')` (first occurrence anywhere), then,
if a `'|'` remains, `val.split('|')[0].trim()`. -/
def dictNormalize (value : String) : String :=
  let val := jsRemoveFirstStr value " | undefined"
  if hasPipe val then jsTrim (jsSplitPipeHead val) else val

/-- Loop of `dictToOpenAPI` over the definition's entries, threading the
`properties` record and `required` array being built. A field whose raw value
is an array of literals short-circuits the whole definition into an enum node. -/
def dictToOpenAPIAux : List (String × FieldVal) → List (String × Schema) → List String → Schema
  | [], properties, required =>
    Schema.obj properties (if required.length > 0 then some required else none)
  | (key, value) :: rest, properties, required =>
    let isRequired := !jsEndsWith key "?"
    let propertyName := if isRequired then key else jsDropRight key 1
    match value with
    | FieldVal.arr vs => Schema.enumS (calcType vs) vs
    | FieldVal.str s =>
      let required' := if isRequired then required ++ [propertyName] else required
      dictToOpenAPIAux rest
        (recSet propertyName (typeToSchemaObject (dictNormalize s)) properties) required'

/-- Convert one extracted definition record into its Draft Schema Node. -/
def dictToOpenAPI (interfaceObj : List (String × FieldVal)) : Schema :=
  dictToOpenAPIAux interfaceObj [] []

mutual
/-- Array-reference dereferencing pass over a schema record: rewrite each value
that is a bare reference ending in `[]` into an array-of-reference node,
recursing into object properties and array items; other nodes are kept as-is. -/
def dereferenceArrays : List (String × Schema) → List (String × Schema)
  | [] => []
  | (key, value) :: rest => (key, derefEntry value) :: dereferenceArrays rest

/-- The per-node action of `dereferenceArrays`. The source routes the `items`
of an array node through a singleton record (`dereferenceArrays({item}).item`),
which is exactly the direct recursion written here. -/
def derefEntry : Schema → Schema
  | Schema.ref refValue =>
    if jsEndsWith refValue "[]" then Schema.arr (Schema.ref (jsDropRight refValue 2))
    else Schema.ref refValue
  | Schema.obj properties required => Schema.obj (dereferenceArrays properties) required
  | Schema.arr items => Schema.arr (derefEntry items)
  | Schema.enumS t vs => Schema.enumS t vs
  | Schema.prim t => Schema.prim t
end

mutual
/-- All `$ref` strings occurring anywhere inside a schema node. -/
def refNames : Schema → List String
  | Schema.obj properties _ => refNamesList properties
  | Schema.arr items => refNames items
  | Schema.enumS _ _ => []
  | Schema.ref r => [r]
  | Schema.prim _ => []

/-- All `$ref` strings occurring inside the values of a schema record. -/
def refNamesList : List (String × Schema) → List String
  | [] => []
  | (_, v) :: rest => refNames v ++ refNamesList rest
end

/-- The `primitiveTypes` array of `findReferencedModels`. -/
def primitiveTypes : List String :=
  ["string", "number", "boolean", "any", "unknown", "null", "undefined", "void",
    "never", "object", "array"]

/-- `primitiveTypes.includes(value)`: only a string can equal one of the
primitive names (an array value is never equal to a string). -/
def primitiveIncludes : FieldVal → Bool
  | FieldVal.str s => primitiveTypes.contains s
  | FieldVal.arr _ => false

/-- JS truthiness of a field value: a string is truthy iff nonempty, an array
is always truthy. -/
def fvTruthy : FieldVal → Bool
  | FieldVal.str s => s != ""
  | FieldVal.arr _ => true

/-- `referencedModels.has(value)`: the set stores strings, so an array value is
never a member. -/
def setHas (visited : List String) : FieldVal → Bool
  | FieldVal.str s => visited.contains s
  | FieldVal.arr _ => false

/-- JS `value.toString()`: a string is itself, an array joins with commas. -/
def fvToString : FieldVal → String
  | FieldVal.str s => s
  | FieldVal.arr vs => String.intercalate "," vs

/-- `Set.add`: insertion-ordered, ignores an element already present. -/
def setAdd (visited : List String) (x : String) : List String :=
  if visited.contains x then visited else visited ++ [x]

/-- The cleanup `findReferencedModels` applies before recording a referenced
name: `value.toString().split('|')[0].trim()`. -/
def findClean (s : String) : String := jsTrim (jsSplitPipeHead s)

/-- The `for (const [, value] of Object.entries(schema))` loop of
`findReferencedModels`; `next` performs the recursive call into a definition
found under a cleaned name (at one less fuel). -/
def findRefLoop (definitions : Defs) (next : Defn → List String → Option (List String)) :
    Defn → List String → Option (List String)
  | [], referencedModels => some referencedModels
  | (_, value) :: rest, referencedModels =>
    if primitiveIncludes value then
      findRefLoop definitions next rest referencedModels
    else if fvTruthy value && !setHas referencedModels value then
      let cleanValue := findClean (fvToString value)
      let referencedModels' := setAdd referencedModels cleanValue
      match recGet cleanValue definitions with
      | some d =>
        match next d referencedModels' with
        | none => none
        | some r => findRefLoop definitions next rest r
      | none => findRefLoop definitions next rest referencedModels'
    else
      findRefLoop definitions next rest referencedModels

/-- Recursively find all referenced models, with fuel bounding the recursion
depth into other definitions. `none` means the source would still be recursing
after exhausting the given depth. -/
def findReferencedModels : Nat → Defn → Defs → List String → Option (List String)
  | 0, schema, definitions, referencedModels =>
    findRefLoop definitions (fun _ _ => none) schema referencedModels
  | fuel + 1, schema, definitions, referencedModels =>
    findRefLoop definitions (fun d v => findReferencedModels fuel d definitions v)
      schema referencedModels

/-- A declaration node of a type-declaration source file, as consumed by
`visitNode`: enum members carry their optional string-literal initializer text;
class/interface members carry (name, has question token, optional type text);
type-alias union members carry (is literal type, text); a variable statement
carries the first declaration's name and the property names of its inferred
type. -/
inductive DeclNode where
  | enumDecl (name : String) (members : List (String × Option String))
  | classOrInterfaceDecl (name : String) (heritage : List String)
      (members : List (String × Bool × Option String))
  | typeAliasDecl (name : String) (unionTypes : Option (List (Bool × String)))
  | variableStatement (declName : Option String) (typeProps : List String)
deriving DecidableEq, Repr

/-- Per enum member: the string-literal initializer's text if present, else the
member's own identifier text. -/
def enumMemberValue (m : String × Option String) : String :=
  match m.2 with
  | some text => text
  | none => m.1

/-- JS `text.replace(/['"]/g, '')`: strip quote characters (codes 39 and 34). -/
def stripQuotes (s : String) : String :=
  ⟨s.data.filter (fun c => c != Char.ofNat 39 && c != Char.ofNat 34)⟩

/-- JS `{...based, ...current}`: keys of `based` first (values overridden by
`current` where shared), then the keys only in `current`, in order. -/
def spreadMerge (based current : Defn) : Defn :=
  current.foldl (fun acc kv => recSet kv.1 kv.2 acc) based

/-- Visit one declaration node, updating the running definition mapping exactly
as the source mutates its `definition` record. -/
def visitNode (definition : Defs) (node : DeclNode) : Defs :=
  match node with
  | DeclNode.enumDecl name members =>
    recSet name [("enum", FieldVal.arr (members.map enumMemberValue))] definition
  | DeclNode.classOrInterfaceDecl name heritage members =>
    let defs1 := recSet name ((recGet name definition).getD []) definition
    let defs2 := heritage.foldl
      (fun acc baseTypeName =>
        match recGet baseTypeName acc with
        | some based =>
          recSet name (spreadMerge based ((recGet name acc).getD [])) acc
        | none => acc) defs1
    members.foldl
      (fun acc m =>
        match m with
        | (memberName, hasQuestion, some typeText) =>
          recSet name
            (recSet (memberName ++ (if hasQuestion then "?" else ""))
              (FieldVal.str typeText) ((recGet name acc).getD []))
            acc
        | (_, _, none) => acc) defs2
  | DeclNode.typeAliasDecl name unionTypes =>
    let defs1 := recSet name ((recGet name definition).getD []) definition
    match unionTypes with
    | some ts =>
      recSet name
        [("enum", FieldVal.arr (ts.map (fun t => if t.1 then stripQuotes t.2 else t.2)))]
        defs1
    | none => defs1
  | DeclNode.variableStatement declName typeProps =>
    match declName with
    | some n =>
      if n = "" then definition
      else recSet n [("enum", FieldVal.arr typeProps)] definition
    | none => definition

/-- Walk every declaration of a source file (the `forEachChild` traversal). -/
def declsToDefs (sourceFile : List DeclNode) : Defs :=
  sourceFile.foldl visitNode []

/-- Extract definitions from a source file; with a focus name, fail when the
name is absent after the full walk. -/
def extractDefinitions (filePath : String) (sourceFile : List DeclNode)
    (interfaceName : Option String) : Except String Defs :=
  let definitions := declsToDefs sourceFile
  match interfaceName with
  | some n =>
    if n != "" && (recGet n definitions).isNone then
      Except.error ("Interface " ++ n ++ " not found in " ++ filePath)
    else Except.ok definitions
  | none => Except.ok definitions

/-- Generate the schema set for one focused name: extract, compute the closure
of referenced models starting from `{interfaceName}`, keep only the closure's
schemas, and dereference arrays. -/
def generateByName (fuel : Nat) (pathToFile : String) (sourceFile : List DeclNode)
    (interfaceName : String) : Option (Except String (List (String × Schema))) :=
  match extractDefinitions pathToFile sourceFile (some interfaceName) with
  | Except.error e => some (Except.error e)
  | Except.ok definitions =>
    match findReferencedModels fuel ((recGet interfaceName definitions).getD [])
        definitions [interfaceName] with
    | none => none
    | some referencedModels =>
      some (Except.ok (dereferenceArrays
        ((definitions.map (fun nd => (nd.1, dictToOpenAPI nd.2))).filter
          (fun ns => referencedModels.contains ns.1))))

/-- Register a Lambda handler class on the global registry, returning the class
unchanged; the registry is explicit state, handlers are compared by reference
identity (modelled by decidable equality on an abstract handler type). -/
def registerLambdaHandler {α : Type} [DecidableEq α] (target : α)
    (lambdaHandlers : List α) : α × List α :=
  if lambdaHandlers.any (fun h => h == target) then (target, lambdaHandlers)
  else (target, lambdaHandlers ++ [target])

/-- Key list of a record. -/
def keysOf {β : Type} (l : List (String × β)) : List String :=
  l.map (fun kv => kv.1)

/-- The `properties` record of an object node (empty for other shapes). -/
def propsOf : Schema → List (String × Schema)
  | Schema.obj properties _ => properties
  | _ => []

/-- The `required` list of an object node; an omitted `required` (the source
emits `undefined` when the list is empty) reads as the empty list. -/
def requiredOf : Schema → List String
  | Schema.obj _ (some required) => required
  | _ => []

/-- A field name with its trailing optionality marker removed, if present. -/
def stripQ (k : String) : String :=
  if jsEndsWith k "?" then jsDropRight k 1 else k

/-- Modelled from the spec wording of the Schema Builder normalization (claim
C4): first remove a trailing `' | undefined'` suffix, then take the first
union alternative, trimmed, if a `'|'` remains. Compare with `dictNormalize`,
the normalization the source actually performs. -/
def specNormalize (value : String) : String :=
  let val := if jsEndsWith value " | undefined"
    then jsDropRight value (" | undefined".length) else value
  if hasPipe val then jsTrim (jsSplitPipeHead val) else val

/-- The schema name a `$ref` pointer string resolves to: the part after the
`#/components/schemas/` pointer prefix. -/
def refTarget (r : String) : String :=
  if "#/components/schemas/".data.isPrefixOf r.data
  then ⟨r.data.drop "#/components/schemas/".data.length⟩ else r

/-- Every element of a visited set is fixed by the recorded-name cleanup
(holds for every name `findReferencedModels` inserts). -/
def AllClean (visited : List String) : Prop :=
  ∀ x ∈ visited, findClean x = x

/-- Every non-primitive, truthy string field value of the definition has its
cleaned name in `out`. -/
def fieldsCovered (d : Defn) (out : List String) : Prop :=
  ∀ k s, (k, FieldVal.str s) ∈ d → primitiveTypes.contains s = false → s ≠ "" →
    findClean s ∈ out

/-- Every name newly reached by the walk had its definition's fields covered. -/
def defsCovered (defs : Defs) (visited out : List String) : Prop :=
  ∀ n dn, n ∈ out → n ∉ visited → recGet n defs = some dn → fieldsCovered dn out

/-- The invariant established by a successful `findReferencedModels` run. -/
def RefInv (defs : Defs) (visited out : List String) (schema : Defn) : Prop :=
  (∀ x ∈ visited, x ∈ out) ∧ AllClean out ∧ fieldsCovered schema out ∧
    defsCovered defs visited out

/-- Record keys are pairwise distinct (true of every JS object). -/
def NodupKeys {β : Type} (l : List (String × β)) : Prop :=
  (keysOf l).Nodup

/-- Source file of claim C3: interface A { prop: B }, interface B
{ val: string }, and an unrelated interface C. -/
def declsFocus : List DeclNode :=
  [DeclNode.classOrInterfaceDecl "A" [] [("prop", false, some "B")],
    DeclNode.classOrInterfaceDecl "B" [] [("val", false, some "string")],
    DeclNode.classOrInterfaceDecl "C" [] [("x", false, some "string")]]

/-- Source file of the C2 counterexample: interface A { users: User[] },
interface User { name: string }. -/
def declsArrayRef : List DeclNode :=
  [DeclNode.classOrInterfaceDecl "A" [] [("users", false, some "User[]")],
    DeclNode.classOrInterfaceDecl "User" [] [("name", false, some "string")]]

/-- Definition mapping for the spec's own cycle example Node { next?: Node }. -/
def nodeGoodDefs : Defs := [("Node", [("next?", FieldVal.str "Node")])]

/-- Definition mapping for interface Node { next: Node | null }: the raw field
value "Node | null" differs from its cleaned form "Node". -/
def nodeLoopDefs : Defs := [("Node", [("next", FieldVal.str "Node | null")])]

theorem recGet_recSet_self {β : Type} (k : String) (v : β) (l : List (String × β)) :
    recGet k (recSet k v l) = some v := by
  induction l with
  | nil => simp [recGet, recSet]
  | cons kv rest ih =>
    obtain ⟨k', v'⟩ := kv
    by_cases h : k' = k
    · simp [recGet, recSet, h]
    · simp [recGet, recSet, h, ih]

theorem recGet_recSet_ne {β : Type} (k k' : String) (v : β) (l : List (String × β))
    (h : k' ≠ k) : recGet k (recSet k' v l) = recGet k l := by
  induction l with
  | nil => simp [recGet, recSet, h]
  | cons kv rest ih =>
    obtain ⟨k₀, v₀⟩ := kv
    by_cases h0 : k₀ = k'
    · subst h0
      simp [recGet, recSet, h, Ne.symm h]
    · by_cases h1 : k₀ = k
      · subst h1
        simp [recGet, recSet, h0]
      · simp [recGet, recSet, h0, h1, ih]

theorem mem_of_recGet_some {β : Type} {k : String} {v : β} {l : List (String × β)}
    (h : recGet k l = some v) : (k, v) ∈ l := by
  induction l with
  | nil => simp [recGet] at h
  | cons kv rest ih =>
    obtain ⟨k', v'⟩ := kv
    by_cases h0 : k' = k
    · subst h0
      simp [recGet] at h
      simp [h]
    · simp [recGet, h0] at h
      exact List.mem_cons_of_mem _ (ih h)

theorem keysOf_recSet {β : Type} (k : String) (v : β) (l : List (String × β)) :
    keysOf (recSet k v l) = if k ∈ keysOf l then keysOf l else keysOf l ++ [k] := by
  induction l with
  | nil => simp [recSet, keysOf]
  | cons kv rest ih =>
    obtain ⟨k', v'⟩ := kv
    by_cases h : k' = k
    · subst h
      simp [recSet, keysOf]
    · simp only [recSet, if_neg h, keysOf, List.map_cons]
      simp only [keysOf] at ih
      rw [ih]
      have hne : ¬k = k' := fun hc => h hc.symm
      by_cases h2 : k ∈ List.map Prod.fst rest
      · simp [h2, hne]
      · simp [h2, hne]

theorem mem_keysOf_recSet {β : Type} (key k : String) (v : β) (l : List (String × β)) :
    key ∈ keysOf (recSet k v l) ↔ key = k ∨ key ∈ keysOf l := by
  rw [keysOf_recSet]
  by_cases h : k ∈ keysOf l
  · simp [h]
    intro he
    subst he
    exact h
  · simp [h]
    exact Or.comm

theorem nodupKeys_cons {β : Type} {k : String} {v : β} {rest : List (String × β)} :
    NodupKeys ((k, v) :: rest) ↔ (∀ x, (k, x) ∉ rest) ∧ NodupKeys rest := by
  simp [NodupKeys, keysOf, List.nodup_cons]

theorem nodupKeys_recSet {β : Type} (k : String) (v : β) (l : List (String × β))
    (h : NodupKeys l) : NodupKeys (recSet k v l) := by
  rw [NodupKeys, keysOf_recSet]
  by_cases h0 : k ∈ keysOf l
  · simpa [h0, NodupKeys] using h
  · rw [if_neg h0]
    rw [List.nodup_append]
    exact ⟨h, List.nodup_singleton k, by simpa using h0⟩

theorem recGet_eq_some_of_mem {β : Type} {k : String} {v : β} {l : List (String × β)}
    (hnd : NodupKeys l) (h : (k, v) ∈ l) : recGet k l = some v := by
  induction l with
  | nil => simp at h
  | cons kv rest ih =>
    obtain ⟨k', v'⟩ := kv
    rcases List.mem_cons.1 h with h0 | h0
    · rw [Prod.ext_iff] at h0
      obtain ⟨h1, h2⟩ := h0
      simp at h1 h2
      subst h1
      subst h2
      simp [recGet]
    · by_cases h1 : k' = k
      · subst h1
        exact absurd h0 ((nodupKeys_cons.1 hnd).1 v)
      · rw [recGet, if_neg h1]
        exact ih (nodupKeys_cons.1 hnd).2 h0

theorem trimChars_eq_rdropWhile (l : List Char) :
    trimChars l = List.rdropWhile wsChar (l.dropWhile wsChar) := rfl

theorem dropWhile_rdropWhile_dropWhile (p : Char → Bool) (l : List Char) :
    (List.rdropWhile p (l.dropWhile p)).dropWhile p = List.rdropWhile p (l.dropWhile p) := by
  rw [List.dropWhile_eq_self_iff]
  intro hl
  obtain ⟨t, ht⟩ := List.rdropWhile_prefix p (l.dropWhile p)
  have hlD : 0 < (l.dropWhile p).length := by
    rw [← ht, List.length_append]
    omega
  have hpref : List.rdropWhile p (l.dropWhile p) <+: l.dropWhile p := ⟨t, ht⟩
  have hgetEq : (List.rdropWhile p (l.dropWhile p)).get ⟨0, hl⟩ =
      (l.dropWhile p).get ⟨0, hlD⟩ := by
    rw [List.get_eq_getElem, List.get_eq_getElem]
    exact hpref.getElem hl
  rw [hgetEq]
  exact List.dropWhile_get_zero_not p l hlD

theorem trimChars_idem (l : List Char) : trimChars (trimChars l) = trimChars l := by
  rw [trimChars_eq_rdropWhile, trimChars_eq_rdropWhile,
    dropWhile_rdropWhile_dropWhile, List.rdropWhile_idempotent]

theorem mem_trimChars {c : Char} {l : List Char} (h : c ∈ trimChars l) : c ∈ l := by
  rw [trimChars_eq_rdropWhile] at h
  have h1 := (List.rdropWhile_prefix wsChar (l.dropWhile wsChar)).sublist.mem h
  exact (List.dropWhile_suffix wsChar).sublist.mem h1

theorem findClean_idem (s : String) : findClean (findClean s) = findClean s := by
  show jsTrim (jsSplitPipeHead (findClean s)) = findClean s
  have h1 : jsSplitPipeHead (findClean s) =
      ⟨(trimChars (s.data.takeWhile (fun c => c != '|'))).takeWhile (fun c => c != '|')⟩ := rfl
  have h2 : (trimChars (s.data.takeWhile (fun c => c != '|'))).takeWhile (fun c => c != '|') =
      trimChars (s.data.takeWhile (fun c => c != '|')) := by
    rw [List.takeWhile_eq_self_iff]
    intro c hc
    have hq := mem_trimChars hc
    have hp := List.mem_takeWhile_imp hq
    exact hp
  show (⟨trimChars ((trimChars (s.data.takeWhile (fun c => c != '|'))).takeWhile
      (fun c => c != '|'))⟩ : String) = findClean s
  rw [h2, trimChars_idem]
  rfl

theorem string_mk_data (v : String) : (⟨v.data⟩ : String) = v := rfl

theorem take_two_eq_iff (l : List Char) (a b : Char) :
    l.take 2 = [a, b] ↔ ∃ rest, l = a :: b :: rest := by
  cases l with
  | nil => simp
  | cons c t =>
    cases t with
    | nil => simp [List.take]
    | cons d r =>
      simp [List.take]

theorem jsEndsWith_brackets (s : String) :
    jsEndsWith s "[]" = true ↔ ∃ rest, s.data.reverse = ']' :: '[' :: rest := by
  show decide (s.data.reverse.take 2 = [']', '[']) = true ↔ _
  rw [decide_eq_true_iff]
  exact take_two_eq_iff s.data.reverse ']' '['

theorem jsDropRight_two (s : String) (rest : List Char)
    (h : s.data.reverse = ']' :: '[' :: rest) : (jsDropRight s 2).data = rest.reverse := by
  have hdata : s.data = rest.reverse ++ ['[', ']'] := by
    have := congrArg List.reverse h
    simpa using this
  show s.data.take (s.data.length - 2) = rest.reverse
  rw [hdata]
  have hlen : (rest.reverse ++ ['[', ']']).length - 2 = rest.reverse.length := by
    simp
  rw [hlen, List.take_left]

theorem typeToSchemaObject_eq (value : String) :
    typeToSchemaObject value =
      if jsEndsWith value "[]" then Schema.arr (typeToSchemaObject (jsDropRight value 2))
      else typeLeaf value := by
  by_cases h : jsEndsWith value "[]" = true
  · obtain ⟨rest, hrest⟩ := (jsEndsWith_brackets value).1 h
    rw [if_pos h]
    show typeToSchemaCore value.data.reverse = _
    rw [hrest]
    have hrec : typeToSchemaObject (jsDropRight value 2) = typeToSchemaCore rest := by
      show typeToSchemaCore (jsDropRight value 2).data.reverse = _
      rw [jsDropRight_two value rest hrest]
      rw [List.reverse_reverse]
    rw [hrec]
    simp [typeToSchemaCore]
  · rw [if_neg h]
    show typeToSchemaCore value.data.reverse = typeLeaf value
    cases hv : value.data.reverse with
    | nil =>
      have hval : value = ⟨[]⟩ := by
        have := congrArg List.reverse hv
        simp at this
        cases value
        simp at this
        simp [this]
      rw [hval]
      rfl
    | cons c t =>
      cases t with
      | nil =>
        have hval : value = ⟨[c]⟩ := by
          have := congrArg List.reverse hv
          simp at this
          cases value
          simp at this
          simp [this]
        rw [hval]
        rfl
      | cons d r =>
        have hcond : ¬(c = ']' ∧ d = '[') := by
          rintro ⟨rfl, rfl⟩
          exact h ((jsEndsWith_brackets value).2 ⟨r, hv⟩)
        show typeToSchemaCore (c :: d :: r) = typeLeaf value
        rw [typeToSchemaCore, if_neg hcond]
        have : (c :: d :: r).reverse = value.data := by
          have := congrArg List.reverse hv
          simpa using this.symm
        rw [this, string_mk_data]

theorem typeToSchemaCore_nest : ∀ l : List Char,
    typeToSchemaCore l = nestArr (revDepth l) (typeLeaf ⟨(revStrip l).reverse⟩)
  | [] => by simp [typeToSchemaCore, revDepth, revStrip, nestArr]
  | [c] => by simp [typeToSchemaCore, revDepth, revStrip, nestArr]
  | c1 :: c2 :: rest => by
    by_cases h : c1 = ']' ∧ c2 = '['
    · rw [typeToSchemaCore, if_pos h, revDepth, if_pos h, revStrip, if_pos h]
      rw [typeToSchemaCore_nest rest]
      rfl
    · rw [typeToSchemaCore, if_neg h, revDepth, if_neg h, revStrip, if_neg h]
      rfl

theorem revStrip_spec : ∀ l : List Char,
    revStrip l = [] ∨ (∃ c, revStrip l = [c]) ∨
      ∃ c1 c2 r, revStrip l = c1 :: c2 :: r ∧ ¬(c1 = ']' ∧ c2 = '[')
  | [] => Or.inl rfl
  | [c] => Or.inr (Or.inl ⟨c, rfl⟩)
  | c1 :: c2 :: rest => by
    by_cases h : c1 = ']' ∧ c2 = '['
    · rw [revStrip, if_pos h]
      exact revStrip_spec rest
    · rw [revStrip, if_neg h]
      exact Or.inr (Or.inr ⟨c1, c2, rest, rfl, h⟩)

theorem stripArrays_not_endsWith (value : String) :
    jsEndsWith (stripArrays value) "[]" = false := by
  have hdata : (stripArrays value).data.reverse = revStrip value.data.reverse := by
    show ((revStrip value.data.reverse).reverse).reverse = _
    rw [List.reverse_reverse]
  rw [Bool.eq_false_iff]
  intro hcontra
  obtain ⟨rest, hrest⟩ := (jsEndsWith_brackets _).1 hcontra
  rw [hdata] at hrest
  rcases revStrip_spec value.data.reverse with h | ⟨c, h⟩ | ⟨c1, c2, r, h, hne⟩
  · rw [h] at hrest
    exact absurd hrest (by simp)
  · rw [h] at hrest
    simp at hrest
  · rw [h] at hrest
    injection hrest with h1 h2
    injection h2 with h2 h3
    exact hne ⟨h1, h2⟩

theorem refNames_nestArr (n : Nat) (sch : Schema) : refNames (nestArr n sch) = refNames sch := by
  induction n with
  | zero => rfl
  | succ m ih => simp [nestArr, refNames, ih]

theorem refNames_typeLeaf (v : String) :
    refNames (typeLeaf v) =
      if v = "string" ∨ v = "number" ∨ v = "boolean" then []
      else ["#/components/schemas/" ++ v] := by
  rw [typeLeaf]
  split
  · rfl
  · rfl

theorem refNames_typeToSchemaObject (v : String) :
    refNames (typeToSchemaObject v) =
      if stripArrays v = "string" ∨ stripArrays v = "number" ∨ stripArrays v = "boolean"
      then [] else ["#/components/schemas/" ++ stripArrays v] := by
  show refNames (typeToSchemaCore v.data.reverse) = _
  rw [typeToSchemaCore_nest, refNames_nestArr, refNames_typeLeaf]
  simp only [stripArrays]

theorem jsEndsWith_ref_pointer (c : String) (h : jsEndsWith c "[]" = false) :
    jsEndsWith ("#/components/schemas/" ++ c) "[]" = false := by
  rw [Bool.eq_false_iff]
  intro hcontra
  obtain ⟨rest, hrest⟩ := (jsEndsWith_brackets _).1 hcontra
  have hd : c.data.reverse ++ "#/components/schemas/".data.reverse = ']' :: '[' :: rest := by
    rw [← List.reverse_append, ← String.data_append]
    exact hrest
  cases hc : c.data.reverse with
  | nil =>
    rw [hc, List.nil_append] at hd
    have hh := congrArg List.head? hd
    rw [show ("#/components/schemas/".data.reverse).head? = some '/' from by decide] at hh
    simp at hh
  | cons x t =>
    cases t with
    | nil =>
      rw [hc] at hd
      simp at hd
    | cons y r =>
      rw [hc] at hd
      simp at hd
      obtain ⟨hx, hy, _⟩ := hd
      have : jsEndsWith c "[]" = true := by
        apply (jsEndsWith_brackets c).2
        exact ⟨r, by rw [hc, hx, hy]⟩
      rw [this] at h
      exact absurd h (by simp)

theorem refNames_typeToSchemaObject_noBrackets (v r : String)
    (h : r ∈ refNames (typeToSchemaObject v)) : jsEndsWith r "[]" = false := by
  rw [refNames_typeToSchemaObject] at h
  split at h
  · simp at h
  · simp at h
    rw [h]
    exact jsEndsWith_ref_pointer _ (stripArrays_not_endsWith v)

mutual
theorem derefEntry_eq_self : ∀ s : Schema,
    (∀ r ∈ refNames s, jsEndsWith r "[]" = false) → derefEntry s = s
  | Schema.ref r, h => by
    have hr : jsEndsWith r "[]" = false := h r (by simp [refNames])
    simp [derefEntry, hr]
  | Schema.obj props req, h => by
    rw [derefEntry, dereferenceArrays_eq_self props
      (fun r hr => h r (by simpa [refNames] using hr))]
  | Schema.arr items, h => by
    rw [derefEntry, derefEntry_eq_self items
      (fun r hr => h r (by simpa [refNames] using hr))]
  | Schema.enumS t vs, _ => rfl
  | Schema.prim t, _ => rfl

theorem dereferenceArrays_eq_self : ∀ l : List (String × Schema),
    (∀ r ∈ refNamesList l, jsEndsWith r "[]" = false) → dereferenceArrays l = l
  | [], _ => rfl
  | (k, v) :: rest, h => by
    rw [dereferenceArrays,
      derefEntry_eq_self v (fun r hr => h r (by simp [refNamesList, hr])),
      dereferenceArrays_eq_self rest (fun r hr => h r (by simp [refNamesList, hr]))]
end

theorem dereferenceArrays_map : ∀ l : List (String × Schema),
    dereferenceArrays l = l.map (fun kv => (kv.1, derefEntry kv.2))
  | [] => rfl
  | (k, v) :: rest => by
    rw [dereferenceArrays, dereferenceArrays_map rest]
    rfl

theorem keysOf_dereferenceArrays (l : List (String × Schema)) :
    keysOf (dereferenceArrays l) = keysOf l := by
  rw [dereferenceArrays_map]
  simp [keysOf]

theorem propertyName_eq_stripQ (k : String) :
    (if (!jsEndsWith k "?") = true then k else jsDropRight k 1) = stripQ k := by
  by_cases h : jsEndsWith k "?" = true
  · simp [stripQ, h]
  · simp [stripQ, h]

theorem requiredOf_obj_ite (p : List (String × Schema)) (r : List String) :
    requiredOf (Schema.obj p (if r.length > 0 then some r else none)) = r := by
  by_cases h : r.length > 0
  · simp [requiredOf, h]
  · have hr : r = [] := List.length_eq_zero.1 (by omega)
    simp [requiredOf, h, hr]

theorem dictToOpenAPIAux_required : ∀ (entries : Defn) (props : List (String × Schema))
    (req : List String), (∀ kv ∈ entries, ∃ s, kv.2 = FieldVal.str s) →
    requiredOf (dictToOpenAPIAux entries props req) =
      req ++ (entries.filter (fun kv => !jsEndsWith kv.1 "?")).map (fun kv => kv.1)
  | [], props, req, _ => by
    simp [dictToOpenAPIAux, requiredOf_obj_ite]
  | (key, value) :: rest, props, req, hstr => by
    obtain ⟨s, hs⟩ := hstr (key, value) (List.mem_cons_self _ _)
    simp only at hs
    subst hs
    have hstr' : ∀ kv ∈ rest, ∃ s, kv.2 = FieldVal.str s :=
      fun kv hkv => hstr kv (List.mem_cons_of_mem _ hkv)
    by_cases h : jsEndsWith key "?" = true
    · simp only [dictToOpenAPIAux, h]
      rw [dictToOpenAPIAux_required rest _ _ hstr']
      simp [List.filter_cons, h]
    · simp only [dictToOpenAPIAux, Bool.eq_false_iff.2 h]
      rw [dictToOpenAPIAux_required rest _ _ hstr']
      simp [List.filter_cons, h]

theorem dictToOpenAPIAux_keys : ∀ (entries : Defn) (props : List (String × Schema))
    (req : List String) (key : String), (∀ kv ∈ entries, ∃ s, kv.2 = FieldVal.str s) →
    (key ∈ keysOf props ∨ ∃ kv ∈ entries, stripQ kv.1 = key) →
    key ∈ keysOf (propsOf (dictToOpenAPIAux entries props req))
  | [], props, req, key, _, h => by
    simp only [dictToOpenAPIAux, propsOf]
    rcases h with h | ⟨kv, hkv, _⟩
    · exact h
    · simp at hkv
  | (k0, value) :: rest, props, req, key, hstr, h => by
    obtain ⟨s, hs⟩ := hstr (k0, value) (List.mem_cons_self _ _)
    simp only at hs
    subst hs
    have hstr' : ∀ kv ∈ rest, ∃ s, kv.2 = FieldVal.str s :=
      fun kv hkv => hstr kv (List.mem_cons_of_mem _ hkv)
    simp only [dictToOpenAPIAux]
    apply dictToOpenAPIAux_keys rest _ _ key hstr'
    rcases h with h | ⟨kv, hkv, hst⟩
    · left
      rw [propertyName_eq_stripQ k0]
      exact (mem_keysOf_recSet key (stripQ k0) _ props).2 (Or.inr h)
    · rcases List.mem_cons.1 hkv with h0 | h0
      · left
        rw [propertyName_eq_stripQ k0]
        refine (mem_keysOf_recSet key (stripQ k0) _ props).2 (Or.inl ?_)
        rw [← hst, h0]
      · exact Or.inr ⟨kv, h0, hst⟩

theorem dictToOpenAPIAux_recGet_preserved : ∀ (entries : Defn)
    (props : List (String × Schema)) (req : List String) (key : String),
    (∀ kv ∈ entries, ∃ s, kv.2 = FieldVal.str s) →
    (∀ kv ∈ entries, stripQ kv.1 ≠ key) →
    recGet key (propsOf (dictToOpenAPIAux entries props req)) = recGet key props
  | [], props, req, key, _, _ => by simp [dictToOpenAPIAux, propsOf]
  | (k0, value) :: rest, props, req, key, hstr, hne => by
    obtain ⟨s, hs⟩ := hstr (k0, value) (List.mem_cons_self _ _)
    simp only at hs
    subst hs
    simp only [dictToOpenAPIAux]
    rw [dictToOpenAPIAux_recGet_preserved rest _ _ key
      (fun kv hkv => hstr kv (List.mem_cons_of_mem _ hkv))
      (fun kv hkv => hne kv (List.mem_cons_of_mem _ hkv))]
    rw [propertyName_eq_stripQ k0]
    exact recGet_recSet_ne key (stripQ k0) _ props (hne (k0, FieldVal.str s) (List.mem_cons_self _ _))

theorem dictToOpenAPIAux_recGet : ∀ (entries : Defn) (props : List (String × Schema))
    (req : List String) (k v : String),
    (∀ kv ∈ entries, ∃ s, kv.2 = FieldVal.str s) →
    (entries.map (fun kv => stripQ kv.1)).Nodup →
    (k, FieldVal.str v) ∈ entries →
    recGet (stripQ k) (propsOf (dictToOpenAPIAux entries props req)) =
      some (typeToSchemaObject (dictNormalize v))
  | [], _, _, k, v, _, _, hmem => by simp at hmem
  | (k0, value) :: rest, props, req, k, v, hstr, hnd, hmem => by
    obtain ⟨s, hs⟩ := hstr (k0, value) (List.mem_cons_self _ _)
    simp only at hs
    subst hs
    have hstr' : ∀ kv ∈ rest, ∃ s, kv.2 = FieldVal.str s :=
      fun kv hkv => hstr kv (List.mem_cons_of_mem _ hkv)
    simp only [List.map_cons, List.nodup_cons] at hnd
    rcases List.mem_cons.1 hmem with h0 | h0
    · rw [Prod.ext_iff] at h0
      obtain ⟨h1, h2⟩ := h0
      simp only at h1 h2
      injection h2 with h2
      subst h1
      subst h2
      simp only [dictToOpenAPIAux]
      rw [dictToOpenAPIAux_recGet_preserved rest _ _ (stripQ k) hstr'
        (fun kv hkv hc => hnd.1 (by rw [← hc]; exact List.mem_map_of_mem _ hkv))]
      rw [propertyName_eq_stripQ k]
      exact recGet_recSet_self (stripQ k) _ props
    · simp only [dictToOpenAPIAux]
      exact dictToOpenAPIAux_recGet rest _ _ k v hstr' hnd.2 h0

theorem refNamesList_recSet : ∀ (k : String) (v : Schema) (l : List (String × Schema))
    (r : String), r ∈ refNamesList (recSet k v l) → r ∈ refNames v ∨ r ∈ refNamesList l
  | k, v, [], r, h => by
    simp [recSet, refNamesList] at h
    exact Or.inl h
  | k, v, (k0, v0) :: rest, r, h => by
    by_cases h0 : k0 = k
    · subst h0
      simp only [recSet, if_pos rfl, refNamesList] at h
      rcases List.mem_append.1 h with h1 | h1
      · exact Or.inl h1
      · exact Or.inr (by simp [refNamesList]; exact Or.inr h1)
    · simp only [recSet, if_neg h0, refNamesList] at h
      rcases List.mem_append.1 h with h1 | h1
      · exact Or.inr (by simp [refNamesList]; exact Or.inl h1)
      · rcases refNamesList_recSet k v rest r h1 with h2 | h2
        · exact Or.inl h2
        · exact Or.inr (by simp [refNamesList]; exact Or.inr h2)

theorem dictToOpenAPIAux_refs : ∀ (entries : Defn) (props : List (String × Schema))
    (req : List String) (r : String), r ∈ refNames (dictToOpenAPIAux entries props req) →
    r ∈ refNamesList props ∨
      ∃ k s, (k, FieldVal.str s) ∈ entries ∧
        r ∈ refNames (typeToSchemaObject (dictNormalize s))
  | [], props, req, r, h => by
    simp only [dictToOpenAPIAux, refNames] at h
    exact Or.inl h
  | (key, value) :: rest, props, req, r, h => by
    cases value with
    | arr vs =>
      simp only [dictToOpenAPIAux, refNames] at h
      simp at h
    | str s =>
      simp only [dictToOpenAPIAux] at h
      rcases dictToOpenAPIAux_refs rest _ _ r h with h1 | ⟨k, s', hmem, hr⟩
      · rcases refNamesList_recSet _ _ _ _ h1 with h2 | h2
        · exact Or.inr ⟨key, s, List.mem_cons_self _ _, h2⟩
        · exact Or.inl h2
      · exact Or.inr ⟨k, s', List.mem_cons_of_mem _ hmem, hr⟩

theorem dictToOpenAPI_refs (d : Defn) (r : String) (h : r ∈ refNames (dictToOpenAPI d)) :
    ∃ k s, (k, FieldVal.str s) ∈ d ∧
      r = "#/components/schemas/" ++ stripArrays (dictNormalize s) := by
  rcases dictToOpenAPIAux_refs d [] [] r h with h1 | ⟨k, s, hm, hr⟩
  · simp [refNamesList] at h1
  · rw [refNames_typeToSchemaObject] at hr
    split at hr
    · simp at hr
    · simp at hr
      exact ⟨k, s, hm, hr⟩

theorem dictToOpenAPI_refs_noBrackets (d : Defn) (r : String)
    (h : r ∈ refNames (dictToOpenAPI d)) : jsEndsWith r "[]" = false := by
  obtain ⟨k, s, _, hr⟩ := dictToOpenAPI_refs d r h
  rw [hr]
  exact jsEndsWith_ref_pointer _ (stripArrays_not_endsWith _)

theorem mem_setAdd {visited : List String} {c x : String} :
    x ∈ setAdd visited c ↔ x ∈ visited ∨ x = c := by
  rw [setAdd]
  split
  · rename_i hcond
    have hc : c ∈ visited := by simpa using hcond
    constructor
    · exact Or.inl
    · rintro (h | rfl)
      · exact h
      · exact hc
  · simp [List.mem_append]

theorem mem_setAdd_self (visited : List String) (c : String) : c ∈ setAdd visited c :=
  mem_setAdd.2 (Or.inr rfl)

theorem mem_setAdd_of_mem {visited : List String} {x : String} (c : String)
    (h : x ∈ visited) : x ∈ setAdd visited c :=
  mem_setAdd.2 (Or.inl h)

theorem AllClean_setAdd {visited : List String} (hv : AllClean visited) (s : String) :
    AllClean (setAdd visited (findClean s)) := by
  intro x hx
  rcases mem_setAdd.1 hx with h | h
  · exact hv x h
  · rw [h]
    exact findClean_idem s

theorem fieldsCovered_mono {d : Defn} {m out : List String} (h : fieldsCovered d m)
    (hsub : ∀ x ∈ m, x ∈ out) : fieldsCovered d out :=
  fun k s hm hp hn => hsub _ (h k s hm hp hn)

theorem findRefLoop_inv (defs : Defs) (next : Defn → List String → Option (List String))
    (hnext : ∀ d v out, AllClean v → next d v = some out → RefInv defs v out d) :
    ∀ (schema : Defn) (visited out : List String), AllClean visited →
      findRefLoop defs next schema visited = some out → RefInv defs visited out schema := by
  intro schema
  induction schema with
  | nil =>
    intro visited out hclean hrun
    simp only [findRefLoop, Option.some.injEq] at hrun
    subst hrun
    refine ⟨fun x hx => hx, hclean, ?_, ?_⟩
    · intro k s hmem _ _
      simp at hmem
    · intro n dn hn hnv _
      exact absurd hn hnv
  | cons kv rest ih =>
    obtain ⟨k, value⟩ := kv
    intro visited out hclean hrun
    simp only [findRefLoop] at hrun
    by_cases hprim : primitiveIncludes value = true
    · rw [if_pos hprim] at hrun
      obtain ⟨hsub, hclean', hfc, hdc⟩ := ih visited out hclean hrun
      refine ⟨hsub, hclean', ?_, hdc⟩
      intro k' s' hmem hp hne
      rcases List.mem_cons.1 hmem with h0 | h0
      · have hv : value = FieldVal.str s' := congrArg Prod.snd h0.symm
        rw [hv] at hprim
        simp [primitiveIncludes] at hprim
        simp [hprim] at hp
      · exact hfc k' s' h0 hp hne
    · rw [if_neg hprim] at hrun
      by_cases htr : (fvTruthy value && !setHas visited value) = true
      · rw [if_pos htr] at hrun
        have hcleanAdd : AllClean (setAdd visited (findClean (fvToString value))) :=
          AllClean_setAdd hclean (fvToString value)
        split at hrun
        · rename_i d hget
          split at hrun
          · exact absurd hrun (by simp)
          · rename_i mid hnextrun
            obtain ⟨hsubN, hcleanN, hfcN, hdcN⟩ := hnext d _ mid hcleanAdd hnextrun
            obtain ⟨hsubR, hcleanR, hfcR, hdcR⟩ := ih mid out hcleanN hrun
            have hsub : ∀ x ∈ visited, x ∈ out :=
              fun x hx => hsubR x (hsubN x (mem_setAdd_of_mem _ hx))
            refine ⟨hsub, hcleanR, ?_, ?_⟩
            · intro k' s' hmem hp hne
              rcases List.mem_cons.1 hmem with h0 | h0
              · have hv : value = FieldVal.str s' := congrArg Prod.snd h0.symm
                subst hv
                exact hsubR _ (hsubN _ (by
                  show findClean s' ∈ setAdd visited (findClean (fvToString (FieldVal.str s')))
                  exact mem_setAdd_self visited _))
              · exact hfcR k' s' h0 hp hne
            · intro n dn hn hnv hrec
              by_cases hnmid : n ∈ mid
              · by_cases hnv' : n ∈ setAdd visited (findClean (fvToString value))
                · have hnc : n = findClean (fvToString value) := by
                    rcases mem_setAdd.1 hnv' with h1 | h1
                    · exact absurd h1 hnv
                    · exact h1
                  subst hnc
                  rw [hget] at hrec
                  injection hrec with hrec
                  subst hrec
                  exact fieldsCovered_mono hfcN hsubR
                · exact fieldsCovered_mono (hdcN n dn hnmid hnv' hrec) hsubR
              · exact hdcR n dn hn hnmid hrec
        · rename_i hget
          obtain ⟨hsubR, hcleanR, hfcR, hdcR⟩ := ih _ out hcleanAdd hrun
          have hsub : ∀ x ∈ visited, x ∈ out :=
            fun x hx => hsubR x (mem_setAdd_of_mem _ hx)
          refine ⟨hsub, hcleanR, ?_, ?_⟩
          · intro k' s' hmem hp hne
            rcases List.mem_cons.1 hmem with h0 | h0
            · have hv : value = FieldVal.str s' := congrArg Prod.snd h0.symm
              subst hv
              exact hsubR _ (mem_setAdd_self visited _)
            · exact hfcR k' s' h0 hp hne
          · intro n dn hn hnv hrec
            by_cases hnv' : n ∈ setAdd visited (findClean (fvToString value))
            · have hnc : n = findClean (fvToString value) := by
                rcases mem_setAdd.1 hnv' with h1 | h1
                · exact absurd h1 hnv
                · exact h1
              subst hnc
              rw [hget] at hrec
              exact absurd hrec (by simp)
            · exact hdcR n dn hn hnv' hrec
      · rw [if_neg htr] at hrun
        obtain ⟨hsub, hclean', hfc, hdc⟩ := ih visited out hclean hrun
        refine ⟨hsub, hclean', ?_, hdc⟩
        intro k' s' hmem hp hne
        rcases List.mem_cons.1 hmem with h0 | h0
        · have hv : value = FieldVal.str s' := congrArg Prod.snd h0.symm
          subst hv
          have htruthy : fvTruthy (FieldVal.str s') = true := by
            simp [fvTruthy, hne]
          have hhas : setHas visited (FieldVal.str s') = true := by
            by_contra hc
            rw [Bool.not_eq_true] at hc
            rw [htruthy, hc] at htr
            simp at htr
          have hmemv : s' ∈ visited := by
            simpa [setHas] using hhas
          have : findClean s' = s' := hclean s' hmemv
          rw [this]
          exact hsub s' hmemv
        · exact hfc k' s' h0 hp hne

theorem findReferencedModels_inv : ∀ (fuel : Nat) (schema : Defn) (defs : Defs)
    (visited out : List String), AllClean visited →
    findReferencedModels fuel schema defs visited = some out →
    RefInv defs visited out schema := by
  intro fuel
  induction fuel with
  | zero =>
    intro schema defs visited out hclean hrun
    exact findRefLoop_inv defs _ (fun d v o _ h => by simp at h) schema visited out hclean hrun
  | succ n ih =>
    intro schema defs visited out hclean hrun
    exact findRefLoop_inv defs _ (fun d v o hc h => ih d defs v o hc h) schema visited out hclean
      hrun

theorem nodupKeys_foldl {γ : Type} (f : Defs → γ → Defs)
    (hf : ∀ acc x, NodupKeys acc → NodupKeys (f acc x)) :
    ∀ (l : List γ) (acc : Defs), NodupKeys acc → NodupKeys (l.foldl f acc)
  | [], _, h => h
  | x :: rest, acc, h => nodupKeys_foldl f hf rest (f acc x) (hf acc x h)

theorem nodupKeys_visitNode (d : Defs) (node : DeclNode) (h : NodupKeys d) :
    NodupKeys (visitNode d node) := by
  cases node with
  | enumDecl name members => exact nodupKeys_recSet _ _ _ h
  | classOrInterfaceDecl name heritage members =>
    simp only [visitNode]
    apply nodupKeys_foldl _ ?_ members _ ?_
    · intro acc2 m hacc
      obtain ⟨mn, q, t⟩ := m
      cases t with
      | none => exact hacc
      | some typeText => exact nodupKeys_recSet _ _ _ hacc
    · apply nodupKeys_foldl _ ?_ heritage _ ?_
      · intro acc b hacc
        cases recGet b acc with
        | none => exact hacc
        | some based => exact nodupKeys_recSet _ _ _ hacc
      · exact nodupKeys_recSet _ _ _ h
  | typeAliasDecl name unionTypes =>
    simp only [visitNode]
    cases unionTypes with
    | none => exact nodupKeys_recSet _ _ _ h
    | some ts => exact nodupKeys_recSet _ _ _ (nodupKeys_recSet _ _ _ h)
  | variableStatement declName typeProps =>
    simp only [visitNode]
    cases declName with
    | none => exact h
    | some n =>
      by_cases hn : n = ""
      · simp [hn]
        exact h
      · simp [hn]
        exact nodupKeys_recSet _ _ _ h

theorem nodupKeys_declsToDefs (sourceFile : List DeclNode) :
    NodupKeys (declsToDefs sourceFile) :=
  nodupKeys_foldl visitNode (fun acc node hacc => nodupKeys_visitNode acc node hacc)
    sourceFile [] (by simp [NodupKeys, keysOf])

theorem generateByName_ok (fuel : Nat) (pathToFile : String) (sourceFile : List DeclNode)
    (interfaceName : String) (result : List (String × Schema))
    (hgen : generateByName fuel pathToFile sourceFile interfaceName = some (Except.ok result)) :
    ∃ referencedModels,
      findReferencedModels fuel ((recGet interfaceName (declsToDefs sourceFile)).getD [])
          (declsToDefs sourceFile) [interfaceName] = some referencedModels ∧
      result = dereferenceArrays
        (((declsToDefs sourceFile).map (fun nd => (nd.1, dictToOpenAPI nd.2))).filter
          (fun ns => referencedModels.contains ns.1)) := by
  simp only [generateByName, extractDefinitions] at hgen
  split at hgen
  · simp at hgen
  · rename_i definitions hdefs
    have hdefs2 : definitions = declsToDefs sourceFile := by
      split at hdefs
      · exact absurd hdefs (by simp)
      · injection hdefs with hdefs
        exact hdefs.symm
    subst hdefs2
    split at hgen
    · simp at hgen
    · rename_i referencedModels heq
      simp only [Option.some.injEq, Except.ok.injEq] at hgen
      exact ⟨referencedModels, heq, hgen.symm⟩

theorem refInv_of_generate (fuel : Nat) (sourceFile : List DeclNode) (interfaceName : String)
    (visited : List String) (hclean : findClean interfaceName = interfaceName)
    (hfind : findReferencedModels fuel ((recGet interfaceName (declsToDefs sourceFile)).getD [])
      (declsToDefs sourceFile) [interfaceName] = some visited) :
    RefInv (declsToDefs sourceFile) [interfaceName] visited
      ((recGet interfaceName (declsToDefs sourceFile)).getD []) := by
  apply findReferencedModels_inv fuel _ _ _ _ ?_ hfind
  intro x hx
  simp at hx
  rw [hx]
  exact hclean

/-- Claim C2 (corrected/amended): for every schema set produced by
`generateByName`, every reference inside any included node points at
`#/components/schemas/` plus the array-stripped, normalized form of some field
type of that node's definition; and whenever the name the closure walk records
for that field (its first union alternative, trimmed) coincides with the name
the reference actually points at, that referenced name is either a key of the
returned set or has no definition in the source file. (The unamended claim is
false: an array-typed field such as `User[]` records the literal name
`User[]`, not `User`, so a defined referenced model can be dropped — see the
counterexample.) -/
theorem generateByName_closure_amended (fuel : Nat) (pathToFile : String)
    (sourceFile : List DeclNode) (interfaceName : String) (result : List (String × Schema))
    (hclean : findClean interfaceName = interfaceName)
    (hgen : generateByName fuel pathToFile sourceFile interfaceName = some (Except.ok result)) :
    ∀ n sch, (n, sch) ∈ result → ∀ r, r ∈ refNames sch →
      ∃ k s dn, recGet n (declsToDefs sourceFile) = some dn ∧ (k, FieldVal.str s) ∈ dn ∧
        r = "#/components/schemas/" ++ stripArrays (dictNormalize s) ∧
        (primitiveTypes.contains s = false → s ≠ "" →
          findClean s = stripArrays (dictNormalize s) →
          stripArrays (dictNormalize s) ∈ keysOf result ∨
            recGet (stripArrays (dictNormalize s)) (declsToDefs sourceFile) = none) := by
  obtain ⟨visited, hfind, hres⟩ :=
    generateByName_ok fuel pathToFile sourceFile interfaceName result hgen
  intro n sch hmem r hr
  rw [hres, dereferenceArrays_map] at hmem
  obtain ⟨kv, hkv, hpair⟩ := List.mem_map.1 hmem
  obtain ⟨nd, hnd, hkv2⟩ := List.mem_map.1 (List.mem_filter.1 hkv).1
  have hpred := (List.mem_filter.1 hkv).2
  subst hkv2
  simp only at hpred
  rw [Prod.ext_iff] at hpair
  obtain ⟨hn, hsch⟩ := hpair
  simp only at hn hsch
  have hschEq : sch = dictToOpenAPI nd.2 := by
    rw [← hsch]
    exact derefEntry_eq_self _ (fun r' hr' => dictToOpenAPI_refs_noBrackets _ r' hr')
  rw [hschEq] at hr
  obtain ⟨k, s, hks, hreq⟩ := dictToOpenAPI_refs nd.2 r hr
  have hnodup := nodupKeys_declsToDefs sourceFile
  have hget : recGet n (declsToDefs sourceFile) = some nd.2 := by
    rw [← hn]
    exact recGet_eq_some_of_mem hnodup (by simpa using hnd)
  refine ⟨k, s, nd.2, hget, hks, hreq, ?_⟩
  intro hprim hne hcoincide
  obtain ⟨hsub, hcleanOut, hfcRoot, hdc⟩ :=
    refInv_of_generate fuel sourceFile interfaceName visited hclean hfind
  have hnv : n ∈ visited := by
    rw [← hn]
    simpa using hpred
  have hfc : fieldsCovered nd.2 visited := by
    by_cases hroot : n = interfaceName
    · have hgd : (recGet interfaceName (declsToDefs sourceFile)).getD [] = nd.2 := by
        rw [← hroot, hget]
        rfl
      rw [← hgd]
      exact hfcRoot
    · exact hdc n nd.2 hnv (by simp [hroot]) hget
  have hmemClean : findClean s ∈ visited := hfc k s hks hprim hne
  rw [hcoincide] at hmemClean
  cases hm : recGet (stripArrays (dictNormalize s)) (declsToDefs sourceFile) with
  | none => exact Or.inr rfl
  | some dm =>
    left
    rw [hres, keysOf_dereferenceArrays]
    have hmm : (stripArrays (dictNormalize s), dictToOpenAPI dm) ∈
        (((declsToDefs sourceFile).map (fun nd => (nd.1, dictToOpenAPI nd.2))).filter
          (fun ns => visited.contains ns.1)) := by
      rw [List.mem_filter]
      refine ⟨List.mem_map.2 ⟨(stripArrays (dictNormalize s), dm), mem_of_recGet_some hm, rfl⟩, ?_⟩
      simpa using hmemClean
    show stripArrays (dictNormalize s) ∈ keysOf _
    simp only [keysOf]
    exact List.mem_map.2 ⟨_, hmm, rfl⟩

theorem findRefLoop_nodeLoop (next : Defn → List String → Option (List String))
    (h : next [("next", FieldVal.str "Node | null")] ["Node"] = none) :
    findRefLoop nodeLoopDefs next [("next", FieldVal.str "Node | null")] ["Node"] = none := by
  have e : findRefLoop nodeLoopDefs next [("next", FieldVal.str "Node | null")] ["Node"] =
      (match next [("next", FieldVal.str "Node | null")] ["Node"] with
        | none => none
        | some r => findRefLoop nodeLoopDefs next [] r) := rfl
  rw [e, h]

/-- Claim C1 (code_bug): the spec asserts `findReferencedModels` terminates for
every Definition mapping, the visited-set check being the cycle guard, and that
on `Node { next?: Node }` it returns `{Node}` once. The second half holds (for
every fuel bound the model returns `some ["Node"]` without recursing), but the
first half fails: on `Node { next: Node | null }` the raw value
`"Node | null"` is never in the visited set (only its cleaned form `"Node"`
is), so the guard never fires and the walk re-enters the `Node` definition
forever — the model exhausts every fuel bound. -/
theorem findReferencedModels_cycle_guard :
    (∀ fuel : Nat, findReferencedModels fuel [("next?", FieldVal.str "Node")] nodeGoodDefs
      ["Node"] = some ["Node"]) ∧
    (∀ fuel : Nat, findReferencedModels fuel [("next", FieldVal.str "Node | null")]
      nodeLoopDefs ["Node"] = none) := by
  constructor
  · intro fuel
    cases fuel with
    | zero => rfl
    | succ n => rfl
  · intro fuel
    induction fuel with
    | zero => rfl
    | succ n ih =>
      show findRefLoop nodeLoopDefs
        (fun d v => findReferencedModels n d nodeLoopDefs v)
        [("next", FieldVal.str "Node | null")] ["Node"] = none
      exact findRefLoop_nodeLoop _ ih

/-- Claim C3 (confirmed): for a file declaring `interface A { prop: B }`,
`interface B { val: string }` and an unrelated `interface C { x: string }`,
`generateByName` focused on `A` returns exactly the schemas of `A` and `B`;
`C` is excluded. -/
theorem generateByName_focus_example :
    generateByName 5 "models.ts" declsFocus "A" =
      some (Except.ok
        [("A", Schema.obj [("prop", Schema.ref "#/components/schemas/B")] (some ["prop"])),
          ("B", Schema.obj [("val", Schema.prim "string")] (some ["val"]))]) := rfl

/-- Claim C6 (confirmed): `typeToSchemaObject` is total, and on an expression
with N trailing array markers it produces exactly N nested array/items levels
around the leaf of the fully unwrapped expression; the leaf is a primitive
node for exactly `string`/`number`/`boolean` and a `$ref` node otherwise. -/
theorem typeToSchemaObject_array_nesting :
    ∀ value : String,
      typeToSchemaObject value = nestArr (arrayDepth value) (typeLeaf (stripArrays value)) ∧
      jsEndsWith (stripArrays value) "[]" = false ∧
      typeLeaf (stripArrays value) =
        (if stripArrays value = "string" ∨ stripArrays value = "number" ∨
            stripArrays value = "boolean"
          then Schema.prim (stripArrays value)
          else Schema.ref ("#/components/schemas/" ++ stripArrays value)) := by
  intro value
  refine ⟨?_, stripArrays_not_endsWith value, rfl⟩
  show typeToSchemaCore value.data.reverse = _
  rw [typeToSchemaCore_nest]
  rfl

/-- Claim C7 (confirmed): when the focus name is absent from the extracted
definition mapping, `extractDefinitions` fails with the
definition-not-found error carrying both the requested name and the file path,
and `generateByName` propagates that error instead of returning a schema set. -/
theorem generateByName_definition_not_found (fuel : Nat) (filePath : String)
    (sourceFile : List DeclNode) (interfaceName : String) (hne : interfaceName ≠ "")
    (habsent : recGet interfaceName (declsToDefs sourceFile) = none) :
    extractDefinitions filePath sourceFile (some interfaceName) =
      Except.error ("Interface " ++ interfaceName ++ " not found in " ++ filePath) ∧
    generateByName fuel filePath sourceFile interfaceName =
      some (Except.error ("Interface " ++ interfaceName ++ " not found in " ++ filePath)) := by
  have hcond : (interfaceName != "" &&
      (recGet interfaceName (declsToDefs sourceFile)).isNone) = true := by
    simp [habsent, hne]
  have hx : extractDefinitions filePath sourceFile (some interfaceName) =
      Except.error ("Interface " ++ interfaceName ++ " not found in " ++ filePath) := by
    simp only [extractDefinitions]
    rw [if_pos hcond]
  refine ⟨hx, ?_⟩
  simp [generateByName, hx]

/-- Witness for C7 at a concrete input: requesting `Missing` from an empty
source file produces the error carrying both the name and the path. -/
theorem generateByName_definition_not_found_witness :
    extractDefinitions "models.ts" [] (some "Missing") =
      Except.error ("Interface " ++ "Missing" ++ " not found in " ++ "models.ts") ∧
    generateByName 0 "models.ts" [] "Missing" =
      some (Except.error ("Interface " ++ "Missing" ++ " not found in " ++ "models.ts")) :=
  generateByName_definition_not_found 0 "models.ts" [] "Missing" (by decide) rfl

/-- Claim C8 (confirmed): `dereferenceArrays` acts entrywise (the result is a
freshly built record, the embedding being pure); it rewrites a bare reference
ending in the array marker into an array-of-reference node, recurses into
object properties and array items, and leaves every non-matching node (other
references, enum and primitive nodes, and any node containing no
array-suffixed reference) unchanged. -/
theorem dereferenceArrays_spec :
    (∀ l : List (String × Schema),
        dereferenceArrays l = l.map (fun kv => (kv.1, derefEntry kv.2))) ∧
    derefEntry (Schema.ref "User[]") = Schema.arr (Schema.ref "User") ∧
    (∀ r, jsEndsWith r "[]" = false → derefEntry (Schema.ref r) = Schema.ref r) ∧
    (∀ t vs, derefEntry (Schema.enumS t vs) = Schema.enumS t vs) ∧
    (∀ t, derefEntry (Schema.prim t) = Schema.prim t) ∧
    (∀ props req, derefEntry (Schema.obj props req) =
      Schema.obj (dereferenceArrays props) req) ∧
    (∀ items, derefEntry (Schema.arr items) = Schema.arr (derefEntry items)) ∧
    (∀ sch : Schema, (∀ r ∈ refNames sch, jsEndsWith r "[]" = false) →
      derefEntry sch = sch) := by
  refine ⟨dereferenceArrays_map, ?_, ?_, ?_, ?_, ?_, ?_, derefEntry_eq_self⟩
  · rw [derefEntry, if_pos (by decide)]
    rfl
  · intro r h
    rw [derefEntry, if_neg (by simp [h])]
  · intro t vs
    rw [derefEntry]
  · intro t
    rw [derefEntry]
  · intro props req
    rw [derefEntry]
  · intro items
    rw [derefEntry]

/-- Witness for C8 at concrete inputs: a non-array reference and an enum node
pass through unchanged. -/
theorem dereferenceArrays_spec_witness :
    derefEntry (Schema.ref "User") = Schema.ref "User" ∧
    derefEntry (Schema.enumS "string" ["admin"]) = Schema.enumS "string" ["admin"] :=
  ⟨dereferenceArrays_spec.2.2.1 "User" (by decide),
    dereferenceArrays_spec.2.2.2.2.2.2.2 (Schema.enumS "string" ["admin"])
      (fun r hr => absurd (by rw [refNames] at hr; exact hr) (List.not_mem_nil r))⟩

/-- Claim C9 (confirmed): an enum declaration extracts to the list of its
members' string-literal initializer texts (falling back to the member
identifier), and for `enum Role { ADMIN = "admin", USER = "user" }` the
generated node is exactly the string enum with values admin, user. -/
theorem enum_schema_generation :
    visitNode [] (DeclNode.enumDecl "Role" [("ADMIN", some "admin"), ("USER", some "user")]) =
      [("Role", [("enum", FieldVal.arr ["admin", "user"])])] ∧
    dictToOpenAPI [("enum", FieldVal.arr ["admin", "user"])] =
      Schema.enumS "string" ["admin", "user"] ∧
    (∀ (name : String) (members : List (String × Option String)) (defs : Defs),
      recGet name (visitNode defs (DeclNode.enumDecl name members)) =
        some [("enum", FieldVal.arr (members.map enumMemberValue))]) := by
  refine ⟨rfl, rfl, ?_⟩
  intro name members defs
  simp only [visitNode]
  exact recGet_recSet_self name _ defs

/-- Claim C10 (confirmed): `registerLambdaHandler` returns its argument
unchanged, registering twice leaves the registry exactly as registering once,
and a handler already present is never stored again (the stored count is the
old count capped below by one). -/
theorem registerLambdaHandler_idempotent {α : Type} [DecidableEq α] (target : α)
    (st : List α) :
    (registerLambdaHandler target st).1 = target ∧
    registerLambdaHandler target (registerLambdaHandler target st).2 =
      (target, (registerLambdaHandler target st).2) ∧
    ((registerLambdaHandler target st).2).count target = max (st.count target) 1 := by
  by_cases h : target ∈ st
  · have hany : st.any (fun h => h == target) = true := by
      rw [List.any_eq_true]
      exact ⟨target, h, by simp⟩
    refine ⟨by simp [registerLambdaHandler, hany], by simp [registerLambdaHandler, hany], ?_⟩
    have hc : 0 < st.count target := List.count_pos_iff.2 h
    have hmax : max (st.count target) 1 = st.count target := Nat.max_eq_left hc
    simp [registerLambdaHandler, hany, hmax]
  · have hany : st.any (fun h => h == target) = false := by
      rw [Bool.eq_false_iff]
      intro hc
      rw [List.any_eq_true] at hc
      obtain ⟨x, hx, he⟩ := hc
      rw [beq_iff_eq] at he
      subst he
      exact h hx
    have hfst : registerLambdaHandler target st = (target, st ++ [target]) := by
      simp [registerLambdaHandler, hany]
    refine ⟨by rw [hfst], ?_, ?_⟩
    · rw [hfst]
      have hany2 : ((st ++ [target]).any (fun h => h == target)) = true := by
        rw [List.any_eq_true]
        exact ⟨target, by simp, by simp⟩
      simp [registerLambdaHandler, hany2]
    · rw [hfst]
      have h0 : st.count target = 0 := List.count_eq_zero.2 h
      simp [List.count_append, h0]

/-- Witness for C10 at a concrete registry. -/
theorem registerLambdaHandler_idempotent_witness :
    (registerLambdaHandler 3 ([] : List Nat)).1 = 3 ∧
    registerLambdaHandler 3 (registerLambdaHandler 3 ([] : List Nat)).2 =
      (3, (registerLambdaHandler 3 ([] : List Nat)).2) ∧
    ((registerLambdaHandler 3 ([] : List Nat)).2).count 3 =
      max (([] : List Nat).count 3) 1 :=
  registerLambdaHandler_idempotent 3 []

/-- Counterexample to claim C2 as stated: on `interface A { users: User[] }`,
`interface B` alias `User { name: string }`, generating by name `A` returns a
set containing only `A`, whose node holds a reference to `User`, even though
`User` has a Definition in the source file — the reference neither resolves
within the set nor is a reference to an undefined external type. -/
theorem generateByName_closure_counterexample :
    generateByName 1 "models.ts" declsArrayRef "A" =
      some (Except.ok [("A", Schema.obj
        [("users", Schema.arr (Schema.ref "#/components/schemas/User"))]
        (some ["users"]))]) ∧
    "#/components/schemas/User" ∈ refNames (Schema.obj
      [("users", Schema.arr (Schema.ref "#/components/schemas/User"))] (some ["users"])) ∧
    refTarget "#/components/schemas/User" = "User" ∧
    recGet "User" (declsToDefs declsArrayRef) = some [("name", FieldVal.str "string")] ∧
    "User" ∉ keysOf [(("A" : String), Schema.obj
      [("users", Schema.arr (Schema.ref "#/components/schemas/User"))]
      (some ["users"]))] := by
  refine ⟨rfl, ?_, rfl, rfl, ?_⟩
  · simp [refNames, refNamesList]
  · simp [keysOf]

/-- Witness for C2 (amended) at a concrete input: in the two-interface closure
of `A { prop: B }`, the reference to `B` satisfies the amended guarantee. -/
theorem generateByName_closure_amended_witness :
    ∃ k s dn, recGet "A" (declsToDefs declsFocus) = some dn ∧
      (k, FieldVal.str s) ∈ dn ∧
      "#/components/schemas/B" = "#/components/schemas/" ++ stripArrays (dictNormalize s) ∧
      (primitiveTypes.contains s = false → s ≠ "" →
        findClean s = stripArrays (dictNormalize s) →
        stripArrays (dictNormalize s) ∈ keysOf
          [(("A" : String), Schema.obj [("prop", Schema.ref "#/components/schemas/B")]
              (some ["prop"])),
            ("B", Schema.obj [("val", Schema.prim "string")] (some ["val"]))] ∨
          recGet (stripArrays (dictNormalize s)) (declsToDefs declsFocus) = none) :=
  generateByName_closure_amended 5 "models.ts" declsFocus "A"
    [(("A" : String), Schema.obj [("prop", Schema.ref "#/components/schemas/B")]
        (some ["prop"])),
      ("B", Schema.obj [("val", Schema.prim "string")] (some ["val"]))]
    rfl rfl "A"
    (Schema.obj [("prop", Schema.ref "#/components/schemas/B")] (some ["prop"]))
    (List.mem_cons_self _ _)
    "#/components/schemas/B" (by simp [refNames, refNamesList])

/-- Counterexample to claim C4 as stated: the source removes the first
occurrence of the substring  | undefined anywhere in the type expression, not
only a trailing suffix. On the field type `A | undefinedB` the builder emits a
reference to `AB` (the substring removal merges the two alternatives), while
the claimed trailing-suffix normalization would emit a reference to the first
union alternative `A`. -/
theorem dictNormalize_not_trailing_only :
    dictToOpenAPI [("f", FieldVal.str "A | undefinedB")] =
      Schema.obj [("f", Schema.ref "#/components/schemas/AB")] (some ["f"]) ∧
    typeToSchemaObject (specNormalize "A | undefinedB") =
      Schema.ref "#/components/schemas/A" ∧
    Schema.ref "#/components/schemas/AB" ≠ Schema.ref "#/components/schemas/A" := by
  refine ⟨rfl, rfl, ?_⟩
  intro hcontra
  injection hcontra with h
  exact absurd h (by decide)

/-- Claim C4 (corrected/amended): for every field of a structured definition,
the schema stored under the stripped field name is the conversion of the
normalized type expression, where normalization removes the first occurrence
of the substring  | undefined anywhere in the string (not only a trailing
suffix) and then, if a union separator remains, keeps the first alternative
trimmed of surrounding whitespace, discarding the rest (`dictNormalize`). -/
theorem dictToOpenAPI_normalization (d : Defn)
    (hstr : ∀ kv ∈ d, ∃ s, kv.2 = FieldVal.str s)
    (hnd : (d.map (fun kv => stripQ kv.1)).Nodup) (k v : String)
    (hmem : (k, FieldVal.str v) ∈ d) :
    recGet (stripQ k) (propsOf (dictToOpenAPI d)) =
      some (typeToSchemaObject (dictNormalize v)) :=
  dictToOpenAPIAux_recGet d [] [] k v hstr hnd hmem

/-- Witness for C4 (amended) at the counterexample's input. -/
theorem dictToOpenAPI_normalization_witness :
    recGet (stripQ "f") (propsOf (dictToOpenAPI [("f", FieldVal.str "A | undefinedB")])) =
      some (typeToSchemaObject (dictNormalize "A | undefinedB")) :=
  dictToOpenAPI_normalization [("f", FieldVal.str "A | undefinedB")]
    (by
      rintro kv hkv
      simp at hkv
      subst hkv
      exact ⟨_, rfl⟩)
    (by simp) "f" "A | undefinedB" (List.mem_cons_self _ _)

/-- Claim C5 (confirmed): the `required` list of the object schema built from
a structured definition is exactly the list of field names not carrying the
optionality marker, in declaration order; each field name ending in the
marker appears in `properties` with the marker stripped and contributes
nothing to `required`; with zero optional fields, `required` is the full
field-name list in declaration order (same length, same order). -/
theorem dictToOpenAPI_required_fields (d : Defn)
    (hstr : ∀ kv ∈ d, ∃ s, kv.2 = FieldVal.str s) :
    requiredOf (dictToOpenAPI d) =
      (d.filter (fun kv => !jsEndsWith kv.1 "?")).map (fun kv => kv.1) ∧
    (∀ k v, (k, v) ∈ d → jsEndsWith k "?" = true →
      stripQ k ∈ keysOf (propsOf (dictToOpenAPI d))) ∧
    ((∀ kv ∈ d, jsEndsWith kv.1 "?" = false) →
      requiredOf (dictToOpenAPI d) = d.map (fun kv => kv.1)) := by
  have hreq : requiredOf (dictToOpenAPI d) =
      (d.filter (fun kv => !jsEndsWith kv.1 "?")).map (fun kv => kv.1) := by
    show requiredOf (dictToOpenAPIAux d [] []) = _
    rw [dictToOpenAPIAux_required d [] [] hstr]
    simp
  refine ⟨hreq, ?_, ?_⟩
  · intro k v hmem hq
    exact dictToOpenAPIAux_keys d [] [] (stripQ k) hstr (Or.inr ⟨(k, v), hmem, rfl⟩)
  · intro hall
    rw [hreq]
    have hfil : d.filter (fun kv => !jsEndsWith kv.1 "?") = d :=
      List.filter_eq_self.2 (fun kv hkv => by simp [hall kv hkv])
    rw [hfil]

/-- Witness for C5 at a concrete definition with one required and one optional
field. -/
theorem dictToOpenAPI_required_fields_witness :
    requiredOf (dictToOpenAPI [("a", FieldVal.str "string"), ("b?", FieldVal.str "number")]) =
      ([("a", FieldVal.str "string"), ("b?", FieldVal.str "number")].filter
        (fun kv => !jsEndsWith kv.1 "?")).map (fun kv => kv.1) ∧
    (∀ k v, (k, v) ∈ [("a", FieldVal.str "string"), ("b?", FieldVal.str "number")] →
      jsEndsWith k "?" = true →
      stripQ k ∈ keysOf (propsOf (dictToOpenAPI
        [("a", FieldVal.str "string"), ("b?", FieldVal.str "number")]))) ∧
    ((∀ kv ∈ [("a", FieldVal.str "string"), ("b?", FieldVal.str "number")],
        jsEndsWith kv.1 "?" = false) →
      requiredOf (dictToOpenAPI [("a", FieldVal.str "string"), ("b?", FieldVal.str "number")]) =
        [("a", FieldVal.str "string"), ("b?", FieldVal.str "number")].map (fun kv => kv.1)) :=
  dictToOpenAPI_required_fields [("a", FieldVal.str "string"), ("b?", FieldVal.str "number")]
    (by
      intro kv hkv
      simp at hkv
      rcases hkv with rfl | rfl
      · exact ⟨_, rfl⟩
      · exact ⟨_, rfl⟩)
